import Mathlib

/-!
Shallow embedding of the time-tracker repository.

Server side (apps/api/src/entries.schema.ts and the express routes):
the zod `CreateEntrySchema` validator, the daily-cap enforcement of
`app.post("/entries")`, and the id validation of
`app.delete("/entries/:id")`.

Client side (apps/web/src/app/page.tsx): `sumHours`, `groupByDate`,
the grand total and the month filter `filteredEntries`.

Modelling conventions: JavaScript numbers are rationals extended with
NaN and the two infinities (`JsNum`); calendar dates are carried as
their `YYYY-MM-DD` string keys (the server persists an entry at the
UTC midnight of its date string — possible only when the string
denotes a real calendar day, see `jsDateValid` — and the cap
aggregation's day range then matches exactly the entries whose stored
instant is that midnight, so day-bucket membership is string-key
equality); JavaScript string comparison (`<` on strings) is Lean's
lexicographic order on strings. The source sorts with
`Array.prototype.sort` and comparators that never return 0; such a
comparator is inconsistent on ties, and ECMAScript then leaves the
resulting order implementation-defined, so `sortDesc` below is one
admissible determinization of that sort, and it is relied on only in
statements that are insensitive to the particular order produced
(permutation, grouping and totalling facts).
-/

namespace TimeTracker

/-- A JavaScript number value: a finite rational, NaN, or an infinity. -/
inductive JsNum where
  | num (q : ℚ)
  | nan
  | inf
  | negInf
deriving DecidableEq

/-- JavaScript `+` on numbers: NaN absorbs, opposite infinities give NaN,
an infinity absorbs finite values. -/
def jsAdd : JsNum → JsNum → JsNum
  | .nan, _ => .nan
  | _, .nan => .nan
  | .inf, .negInf => .nan
  | .negInf, .inf => .nan
  | .inf, _ => .inf
  | _, .inf => .inf
  | .negInf, _ => .negInf
  | _, .negInf => .negInf
  | .num a, .num b => .num (a + b)

/-- The fixed project set (`PROJECTS` in entries.schema.ts). -/
def PROJECTS : List String :=
  ["Viso Internal", "Client A", "Client B", "Personal Development"]

/-- `MAX_HOURS_PER_DAY` in entries.schema.ts. -/
def MAX_HOURS_PER_DAY : ℚ := 24

/-- An inbound creation request after JSON parsing: the shape consumed by
`CreateEntrySchema.safeParse` (zod has already ruled out non-number and
NaN `hours`, so `hours` is carried as a rational). -/
structure Candidate where
  date : String
  project : String
  hours : ℚ
  description : String
deriving DecidableEq

/-- The zod regex `^\d{4}-\d{2}-\d{2}$` on the character list of the
date string: exactly four digits, a hyphen, two digits, a hyphen, two
digits. -/
def dateOkChars : List Char → Bool
  | [y1, y2, y3, y4, h1, m1, m2, h2, d1, d2] =>
    y1.isDigit && y2.isDigit && y3.isDigit && y4.isDigit &&
    decide (h1 = '-') &&
    m1.isDigit && m2.isDigit &&
    decide (h2 = '-') &&
    d1.isDigit && d2.isDigit
  | _ => false

/-- `z.string().regex(/^\d{4}-\d{2}-\d{2}$/)`. -/
def dateOk (s : String) : Bool := dateOkChars s.data

/-- `z.enum(PROJECTS)`. -/
def projectOk (p : String) : Bool := decide (p ∈ PROJECTS)

/-- `z.number().positive()`. -/
def hoursOk (h : ℚ) : Bool := decide (0 < h)

/-- `z.string().min(1)`. -/
def descOk (s : String) : Bool := decide (1 ≤ s.length)

/-- `CreateEntrySchema.safeParse` succeeds exactly when all four field
checks pass. -/
def validateEntry (c : Candidate) : Bool :=
  dateOk c.date && projectOk c.project && hoursOk c.hours && descOk c.description

/-- A persisted `TimeEntry` row on the server: `date` is the `YYYY-MM-DD`
day key of the stored UTC-midnight instant. -/
structure ApiEntry where
  id : Nat
  date : String
  project : String
  hours : ℚ
  description : String
deriving DecidableEq

/-- The entry store: the persisted rows plus the next auto-increment id. -/
structure Store where
  entries : List ApiEntry
  nextId : Nat
deriving DecidableEq

/-- The cap aggregation of `app.post("/entries")`: prisma
`aggregate(_sum hours, where date in the candidate's UTC day range)`,
with `?? 0` for the empty case. -/
def dailySum (entries : List ApiEntry) (d : String) : ℚ :=
  ((entries.filter (fun e => decide (e.date = d))).map (fun e => e.hours)).sum

/-- Modelled from the spec: Gregorian leap year. -/
def isLeapYear (y : Nat) : Bool :=
  (decide (y % 4 = 0) && decide (y % 100 ≠ 0)) || decide (y % 400 = 0)

/-- Modelled from the spec: number of days in a month. -/
def daysInMonth (y m : Nat) : Nat :=
  if m = 2 then (if isLeapYear y then 29 else 28)
  else if m = 4 ∨ m = 6 ∨ m = 9 ∨ m = 11 then 30
  else 31

/-- Modelled from the spec: "a well-formed calendar date" — whether
year `y`, month `m`, day `d` denote a real calendar day. -/
def isRealDay (y m d : Nat) : Bool :=
  decide (1 ≤ m) && decide (m ≤ 12) && decide (1 ≤ d) && decide (d ≤ daysInMonth y m)

/-- The numeric year, month and day fields of a date string (meaningful
for strings matching the `YYYY-MM-DD` digit pattern). -/
def dateNums (s : String) : Nat × Nat × Nat :=
  match s.data with
  | [y1, y2, y3, y4, _, m1, m2, _, d1, d2] =>
    (1000 * (y1.toNat - 48) + 100 * (y2.toNat - 48) + 10 * (y3.toNat - 48) + (y4.toNat - 48),
     10 * (m1.toNat - 48) + (m2.toNat - 48),
     10 * (d1.toNat - 48) + (d2.toNat - 48))
  | _ => (0, 0, 0)

/-- Whether `new Date(`${date}T00:00:00.000Z`)` in the creation route
yields a valid instant: under the ECMAScript date-time string format a
pattern-matching string parses exactly when its digit fields denote a
real Gregorian calendar day (out-of-range month or day gives an Invalid
Date). -/
def jsDateValid (s : String) : Bool :=
  dateOkChars s.data &&
    isRealDay (dateNums s).1 (dateNums s).2.1 (dateNums s).2.2

/-- The rejection message template
`Max ${MAX_HOURS_PER_DAY} hours per day exceeded` with
`MAX_HOURS_PER_DAY = 24` interpolated. -/
def capMessage : String := "Max 24 hours per day exceeded"

/-- Outcome of `app.post("/entries")`: `storeError` is the thrown-error
outcome of handing prisma an Invalid Date — the async handler has no
catch, the request fails and nothing is persisted. -/
inductive PostResult where
  | validationError
  | storeError
  | capExceeded (msg : String)
  | created (e : ApiEntry)
deriving DecidableEq

/-- `app.post("/entries")`: validate, then convert the date string to
its UTC-midnight instant — for a pattern-matching string denoting no
real calendar day this `new Date` is an Invalid Date and the prisma
aggregate/create calls throw, so nothing is persisted (`storeError`);
otherwise aggregate the existing sum for the candidate's date, reject
when `existing + hours > MAX_HOURS_PER_DAY`, and otherwise persist the
entry with a store-assigned id. -/
def postEntry (st : Store) (c : Candidate) : PostResult × Store :=
  if validateEntry c = true then
    if jsDateValid c.date = false then (.storeError, st)
    else
      let existing := dailySum st.entries c.date
      if MAX_HOURS_PER_DAY < existing + c.hours then
        (.capExceeded capMessage, st)
      else
        let e : ApiEntry := ⟨st.nextId, c.date, c.project, c.hours, c.description⟩
        (.created e, ⟨st.entries ++ [e], st.nextId + 1⟩)
  else (.validationError, st)

/-- `Number.isInteger(id) && id > 0` for the value produced by
`Number(req.params.id)` (NaN for a non-numeric path segment). -/
def isPosIntId : JsNum → Bool
  | .num q => decide (q.den = 1) && decide (0 < q)
  | _ => false

/-- The natural number behind a valid positive-integer id. -/
def jsNumToNat : JsNum → Nat
  | .num q => q.num.toNat
  | _ => 0

/-- Outcome of `app.delete("/entries/:id")`. -/
inductive DeleteResult where
  | invalidId
  | deleted
  | notFound
deriving DecidableEq

/-- `app.delete("/entries/:id")`: reject non-positive-integer ids with
the "Invalid id" outcome before touching the store; otherwise prisma
`delete where id` removes the row, throwing (mapped to 404 NotFound)
when no row has that id. -/
def deleteEntry (st : Store) (v : JsNum) : DeleteResult × Store :=
  if isPosIntId v = false then (.invalidId, st)
  else
    let n := jsNumToNat v
    if st.entries.any (fun e => decide (e.id = n)) then
      (.deleted, ⟨st.entries.filter (fun e => decide (e.id ≠ n)), st.nextId⟩)
    else (.notFound, st)

/-- One API write operation. -/
inductive Op where
  | create (c : Candidate)
  | del (v : JsNum)

/-- The store after one sequentially executed write operation. -/
def applyOp (st : Store) : Op → Store
  | .create c => (postEntry st c).2
  | .del v => (deleteEntry st v).2

/-- The empty store the migrated database starts from. -/
def initStore : Store := ⟨[], 1⟩

/-- The store reached by a sequence of writes from the empty store. -/
def runOps (ops : List Op) : Store := ops.foldl applyOp initStore

/-- A `TimeEntry` as the web client receives it from the API
(`hours` is `Option` so that an absent field can be expressed). -/
structure WebEntry where
  id : Nat
  date : String
  project : String
  hours : Option JsNum
  description : String
  createdAt : String
deriving DecidableEq

/-- JavaScript `s.slice(a, b)` on an ASCII string. -/
def sliceStr (s : String) (a b : Nat) : String :=
  ⟨(s.data.drop a).take (b - a)⟩

/-- `dateKeyFromIso`: the first ten characters of an ISO string of
length at least ten, the string itself otherwise. -/
def dateKey (s : String) : String :=
  if 10 ≤ s.length then sliceStr s 0 10 else s

/-- `toYYYYMM`: the year and two-digit month slices of the date key. -/
def toYYYYMM (s : String) : String × String :=
  let d := dateKey s
  (sliceStr d 0 4, sliceStr d 5 7)

/-- JavaScript `v || 0` on a number: the falsy numbers NaN and zero are
replaced by `0` (zero maps to zero either way). -/
def jsOr : JsNum → JsNum
  | .nan => .num 0
  | v => v

/-- `Number(e.hours) || 0`: an absent field gives `Number(undefined) = NaN`,
then the falsy-to-zero replacement applies. -/
def coerceHours : Option JsNum → JsNum
  | none => jsOr .nan
  | some v => jsOr v

/-- `sumHours`: `entries.reduce((sum, e) => sum + (Number(e.hours) || 0), 0)`. -/
def sumHours (l : List WebEntry) : JsNum :=
  l.foldl (fun s e => jsAdd s (coerceHours e.hours)) (.num 0)

/-- Left fold of `jsAdd` from zero (helper for reasoning about the
reduces in page.tsx). -/
def jsSum (l : List JsNum) : JsNum := l.foldl jsAdd (.num 0)

/-- The day key an entry is bucketed under. -/
def entryKey (e : WebEntry) : String := dateKey e.date

/-- One step of the `Map` building loop of `groupByDate`: push onto the
existing bucket of the key (JavaScript `Map.set` keeps the key's
position) or append a fresh bucket at the end. -/
def insertGrouped (m : List (String × List WebEntry)) (k : String) (e : WebEntry) :
    List (String × List WebEntry) :=
  if m.any (fun p => decide (p.1 = k)) then
    m.map (fun p => if p.1 = k then (p.1, p.2 ++ [e]) else p)
  else m ++ [(k, [e])]

/-- The `Map<string, TimeEntry[]>` of `groupByDate` as an association
list in key insertion order. -/
def groupPairs (l : List WebEntry) : List (String × List WebEntry) :=
  l.foldl (fun m e => insertGrouped m (entryKey e) e) []

/-- JavaScript `<` on characters (code unit comparison). -/
def charLt (a b : Char) : Bool := decide (a < b)

/-- JavaScript `<` on strings as character lists: lexicographic, a
proper initial segment is smaller. -/
def charsLt : List Char → List Char → Bool
  | _, [] => false
  | [], _ :: _ => true
  | a :: as, b :: bs => charLt a b || (decide (a = b) && charsLt as bs)

/-- JavaScript `<` on strings. -/
def strLt (a b : String) : Bool := charsLt a.data b.data

/-- Stable insertion of `x`: `x` is placed before the first element `y`
with `le x y`. -/
def insertDesc (le : α → α → Bool) (x : α) : List α → List α
  | [] => [x]
  | y :: ys => if le x y then x :: y :: ys else y :: insertDesc le x ys

/-- Insertion sort placing `a` before `b` exactly when `le a b`. The
source's `Array.prototype.sort` comparators never return 0, so they are
inconsistent on ties and ECMAScript leaves the order of tied elements
implementation-defined; this function is one admissible determinization
of that sort, and the claims below rely on it only through facts that
hold for every order the engine may produce (it is a permutation, and
the sums and groupings proved about it are permutation-invariant). -/
def sortDesc (le : α → α → Bool) : List α → List α
  | [] => []
  | x :: xs => insertDesc le x (sortDesc le xs)

/-- The within-bucket comparator of `groupByDate` exactly as written:
`(a, b) => (a.createdAt < b.createdAt ? 1 : -1)`; it never returns 0. -/
def entryCmp (a b : WebEntry) : Int :=
  if strLt a.createdAt b.createdAt then 1 else -1

/-- The sign of `entryCmp` as the predicate "`a` may stay before `b`"
(`entryCmp a b ≤ 0`); for entries with equal `createdAt` the comparator
is inconsistent and the engine's actual tie order is
implementation-defined. -/
def entryLe (a b : WebEntry) : Bool := !(strLt a.createdAt b.createdAt)

/-- One rendered group: `{ date, entries, total }`. -/
structure Grouped where
  date : String
  entries : List WebEntry
  total : JsNum
deriving DecidableEq

/-- The group comparator of `groupByDate`,
`(a, b) => (a.date < b.date ? 1 : -1)`, as the predicate
"`a` may stay before `b`" (group dates are distinct, so this comparator
is consistent on the array it sorts). -/
def groupLe (a b : Grouped) : Bool := !(strLt a.date b.date)

/-- Turn one map bucket into a rendered group: apply the within-bucket
sort (`[...list].sort` with the `createdAt` comparator) and total the
resulting list with `sumHours`. -/
def mkGroup (p : String × List WebEntry) : Grouped :=
  let sorted := sortDesc entryLe p.2
  ⟨p.1, sorted, sumHours sorted⟩

/-- `groupByDate`: build the date map, render each bucket, sort the
groups by date descending. -/
def groupByDate (l : List WebEntry) : List Grouped :=
  sortDesc groupLe ((groupPairs l).map mkGroup)

/-- `grandTotal`: `grouped.reduce((sum, g) => sum + g.total, 0)`. -/
def grandTotal (gs : List Grouped) : JsNum :=
  gs.foldl (fun s g => jsAdd s g.total) (.num 0)

/-- The history filter mode select. -/
inductive FilterMode where
  | all
  | month
deriving DecidableEq

/-- `filteredEntries`: the full collection when the mode is "all" or
when either selection string is empty (falsy), otherwise the entries
whose year and month slices match the selection. -/
def filteredEntries (mode : FilterMode) (fy fm : String) (entries : List WebEntry) :
    List WebEntry :=
  if mode = FilterMode.all then entries
  else if fy = "" ∨ fm = "" then entries
  else entries.filter (fun e =>
    decide ((toYYYYMM e.date).1 = fy) && decide ((toYYYYMM e.date).2 = fm))

/-- Modelled from the spec: "trimming surrounding whitespace" — the
JavaScript `String.prototype.trim` whitespace class (ASCII part). -/
def isJsSpace (c : Char) : Bool :=
  decide (c = ' ') || decide (c = '\t') || decide (c = '\n') ||
  decide (c = '\r') || decide (c = '\x0b') || decide (c = '\x0c')

/-- Modelled from the spec: surrounding-whitespace trim. -/
def jsTrim (s : String) : String :=
  ⟨((s.data.dropWhile isJsSpace).reverse.dropWhile isJsSpace).reverse⟩

/-- The decimal digit character for `n % 10`. -/
def digitCharOf (n : Nat) : Char := Char.ofNat (48 + n % 10)

/-- The two low-order decimal digits of `n` as characters. -/
def pad2c (n : Nat) : List Char := [digitCharOf (n / 10), digitCharOf n]

/-- The four low-order decimal digits of `n` as characters. -/
def pad4c (n : Nat) : List Char :=
  [digitCharOf (n / 1000), digitCharOf (n / 100), digitCharOf (n / 10), digitCharOf n]

/-- Modelled from the spec: the `YYYY-MM-DD` rendering of a numeric
year, month and day (low-order digits). -/
def mkDateString (y m d : Nat) : String :=
  ⟨pad4c y ++ '-' :: (pad2c m ++ '-' :: pad2c d)⟩

/-- Whether the second character list begins with the first. -/
def charsStartWith : List Char → List Char → Bool
  | [], _ => true
  | _ :: _, [] => false
  | p :: ps, c :: cs => decide (p = c) && charsStartWith ps cs

/-- Whether the pattern occurs as a contiguous run inside the second
character list. -/
def hasSub (pat : List Char) : List Char → Bool
  | [] => charsStartWith pat []
  | c :: cs => charsStartWith pat (c :: cs) || hasSub pat cs

/-- The server-store invariant: all persisted hours are positive and no
calendar date's total exceeds the daily cap. -/
def StoreInv (st : Store) : Prop :=
  (∀ e ∈ st.entries, 0 < e.hours) ∧
  (∀ d : String, dailySum st.entries d ≤ MAX_HOURS_PER_DAY)

/-- The finite rational contribution of an `hours` field when NaN and
missing values count as zero. -/
def finContribution : Option JsNum → ℚ
  | some (JsNum.num q) => q
  | _ => 0

/-- Invariant of the `groupByDate` map-building loop after consuming the
prefix `pfx`: bucket keys are distinct, each bucket holds exactly the
consumed entries with its key in input order, and every consumed entry
has its key present. -/
def GPInv (pfx : List WebEntry) (m : List (String × List WebEntry)) : Prop :=
  (m.map Prod.fst).Nodup ∧
  (∀ p ∈ m, p.2 = pfx.filter (fun e => decide (entryKey e = p.1))) ∧
  (∀ e ∈ pfx, entryKey e ∈ m.map Prod.fst)

/-- Concrete fixture: a valid candidate for an empty day. -/
def cNew : Candidate := ⟨"2026-01-30", "Client A", 5, "Setup project"⟩

/-- Concrete fixture: a stored entry filling 2026-01-29 completely. -/
def eFull : ApiEntry := ⟨1, "2026-01-29", "Client A", 24, "long day"⟩

/-- Concrete fixture: a store whose 2026-01-29 cap is exhausted. -/
def stFull : Store := ⟨[eFull], 2⟩

/-- Concrete fixture: a one-hour candidate for the exhausted day. -/
def cOne : Candidate := ⟨"2026-01-29", "Client A", 1, "more work"⟩

/-- Concrete fixture: a candidate whose description is a single space. -/
def cWS : Candidate := ⟨"2026-01-29", "Client A", 1, " "⟩

/-- Concrete fixture: a candidate whose date matches the digit pattern
but denotes no real calendar day. -/
def cBadDate : Candidate := ⟨"2026-13-40", "Client A", 1, "oops"⟩

/-- Concrete fixture: a web entry with `hours` equal to positive infinity. -/
def wInf : WebEntry :=
  ⟨1, "2026-01-29", "Client A", some JsNum.inf, "a", "2026-01-29T10:00:00.000Z"⟩

/-- Concrete fixture: a web entry with NaN `hours`. -/
def wNan : WebEntry :=
  ⟨2, "2026-01-29", "Client A", some JsNum.nan, "b", "2026-01-29T11:00:00.000Z"⟩

/-- Concrete fixture: a web entry with an absent `hours` field. -/
def wNone : WebEntry :=
  ⟨3, "2026-01-29", "Client A", none, "c", "2026-01-29T12:00:00.000Z"⟩

/-- Concrete fixture: a web entry with five hours. -/
def wFive : WebEntry :=
  ⟨4, "2026-01-30", "Client A", some (JsNum.num 5), "d", "2026-01-30T09:00:00.000Z"⟩

/-- Concrete fixture: first of two entries sharing date and createdAt,
in input order. -/
def wTie1 : WebEntry :=
  ⟨6, "2026-01-29", "Client A", some (JsNum.num 1), "f", "2026-01-29T10:00:00.000Z"⟩

/-- Concrete fixture: second of two entries sharing date and createdAt,
in input order. -/
def wTie2 : WebEntry :=
  ⟨7, "2026-01-29", "Client B", some (JsNum.num 2), "g", "2026-01-29T10:00:00.000Z"⟩

/-- Concrete fixture: a February web entry with two hours. -/
def wFeb : WebEntry :=
  ⟨5, "2026-02-02", "Client B", some (JsNum.num 2), "e", "2026-02-02T09:00:00.000Z"⟩

theorem charsLt_iff (l₁ l₂ : List Char) : charsLt l₁ l₂ = true ↔ List.Lex (· < ·) l₁ l₂ := by
  induction l₁ generalizing l₂ with
  | nil =>
    cases l₂ with
    | nil => simp [charsLt]
    | cons b bs => simp [charsLt]; exact List.Lex.nil
  | cons a as ih =>
    cases l₂ with
    | nil => simp [charsLt]
    | cons b bs =>
      simp only [charsLt, charLt, Bool.or_eq_true, Bool.and_eq_true, decide_eq_true_eq, ih]
      constructor
      · rintro (h | ⟨rfl, h⟩)
        · exact List.Lex.rel h
        · exact List.Lex.cons h
      · intro h
        cases h with
        | cons h => exact Or.inr ⟨rfl, h⟩
        | rel h => exact Or.inl h

theorem strLt_iff (s₁ s₂ : String) : strLt s₁ s₂ = true ↔ s₁ < s₂ := by
  rw [String.lt_iff_toList_lt]
  exact charsLt_iff s₁.data s₂.data

theorem jsAdd_zero_left (v : JsNum) : jsAdd (.num 0) v = v := by
  cases v <;> simp [jsAdd]

theorem jsAdd_zero_right (v : JsNum) : jsAdd v (.num 0) = v := by
  cases v <;> simp [jsAdd]

theorem jsAdd_comm (a b : JsNum) : jsAdd a b = jsAdd b a := by
  cases a <;> cases b <;> simp [jsAdd, add_comm]

theorem jsAdd_assoc (a b c : JsNum) : jsAdd (jsAdd a b) c = jsAdd a (jsAdd b c) := by
  cases a <;> cases b <;> cases c <;> simp [jsAdd, add_assoc]

theorem jsAdd_left_comm (a b c : JsNum) : jsAdd a (jsAdd b c) = jsAdd b (jsAdd a c) := by
  rw [← jsAdd_assoc, jsAdd_comm a b, jsAdd_assoc]

theorem foldl_jsAdd_init (l : List JsNum) :
    ∀ s : JsNum, l.foldl jsAdd s = jsAdd s (jsSum l) := by
  induction l with
  | nil => intro s; simp [jsSum, jsAdd_zero_right]
  | cons a l ih =>
    intro s
    simp only [jsSum, List.foldl_cons] at *
    rw [ih (jsAdd s a), ih (jsAdd (.num 0) a), jsAdd_zero_left, jsAdd_assoc]

theorem jsSum_cons (a : JsNum) (l : List JsNum) : jsSum (a :: l) = jsAdd a (jsSum l) := by
  simp only [jsSum, List.foldl_cons]
  rw [show (jsAdd (.num 0) a) = a from jsAdd_zero_left a, foldl_jsAdd_init]
  rfl

theorem jsSum_append (l₁ l₂ : List JsNum) :
    jsSum (l₁ ++ l₂) = jsAdd (jsSum l₁) (jsSum l₂) := by
  simp only [jsSum, List.foldl_append]
  rw [foldl_jsAdd_init l₂ (List.foldl jsAdd (.num 0) l₁)]
  rfl

theorem jsSum_perm {l₁ l₂ : List JsNum} (h : l₁.Perm l₂) : jsSum l₁ = jsSum l₂ := by
  induction h with
  | nil => rfl
  | cons a _ ih => rw [jsSum_cons, jsSum_cons, ih]
  | swap a b l => rw [jsSum_cons, jsSum_cons, jsSum_cons, jsSum_cons, jsAdd_left_comm]
  | trans _ _ ih₁ ih₂ => rw [ih₁, ih₂]

theorem sumHours_eq_jsSum (l : List WebEntry) :
    sumHours l = jsSum (l.map (fun e => coerceHours e.hours)) := by
  simp only [sumHours, jsSum, List.foldl_map]

theorem sumHours_append (l₁ l₂ : List WebEntry) :
    sumHours (l₁ ++ l₂) = jsAdd (sumHours l₁) (sumHours l₂) := by
  simp only [sumHours_eq_jsSum, List.map_append, jsSum_append]

theorem sumHours_perm {l₁ l₂ : List WebEntry} (h : l₁.Perm l₂) : sumHours l₁ = sumHours l₂ := by
  rw [sumHours_eq_jsSum, sumHours_eq_jsSum]
  exact jsSum_perm (h.map _)

theorem insertDesc_perm (le : α → α → Bool) (x : α) (l : List α) :
    (insertDesc le x l).Perm (x :: l) := by
  induction l with
  | nil => simp [insertDesc]
  | cons y ys ih =>
    simp only [insertDesc]
    by_cases h : le x y = true
    · rw [if_pos h]
    · rw [if_neg h]
      exact (ih.cons y).trans (List.Perm.swap x y ys)

theorem sortDesc_perm (le : α → α → Bool) (l : List α) : (sortDesc le l).Perm l := by
  induction l with
  | nil => simp [sortDesc]
  | cons x xs ih =>
    simp only [sortDesc]
    exact (insertDesc_perm le x (sortDesc le xs)).trans (ih.cons x)

theorem insertGrouped_inv {pfx : List WebEntry} {m : List (String × List WebEntry)}
    (h : GPInv pfx m) (e : WebEntry) :
    GPInv (pfx ++ [e]) (insertGrouped m (entryKey e) e) := by
  obtain ⟨hnd, hcontent, hcov⟩ := h
  by_cases hmem : m.any (fun p => decide (p.1 = entryKey e)) = true
  · rw [insertGrouped, if_pos hmem]
    have hfst : (m.map (fun p => if p.1 = entryKey e then (p.1, p.2 ++ [e]) else p)).map
        Prod.fst = m.map Prod.fst := by
      rw [List.map_map]
      apply List.map_congr_left
      intro p _
      by_cases hp : p.1 = entryKey e
      · simp [hp]
      · simp [hp]
    refine ⟨?_, ?_, ?_⟩
    · rw [hfst]; exact hnd
    · intro p' hp'
      rcases List.mem_map.mp hp' with ⟨p, hpm, rfl⟩
      by_cases hp : p.1 = entryKey e
      · rw [if_pos hp]
        simp only [List.filter_append, ← hcontent p hpm]
        simp [List.filter_cons, hp]
      · rw [if_neg hp]
        rw [List.filter_append, ← hcontent p hpm]
        have hne : decide (entryKey e = p.1) = false := by
          simp only [decide_eq_false_iff_not]
          exact fun hk => hp hk.symm
        simp [List.filter_cons, hne]
    · intro e' he'
      rw [hfst]
      rcases List.mem_append.mp he' with he' | he'
      · exact hcov e' he'
      · simp only [List.mem_singleton] at he'
        subst he'
        rcases List.any_eq_true.mp hmem with ⟨p, hpm, hp⟩
        simp only [decide_eq_true_eq] at hp
        rw [← hp]
        exact List.mem_map_of_mem Prod.fst hpm
  · rw [insertGrouped, if_neg hmem]
    have hnotkey : entryKey e ∉ m.map Prod.fst := by
      intro hk
      rcases List.mem_map.mp hk with ⟨p, hpm, hp⟩
      exact hmem (List.any_eq_true.mpr ⟨p, hpm, by simp [hp]⟩)
    refine ⟨?_, ?_, ?_⟩
    · rw [List.map_append]
      refine List.nodup_append.mpr ⟨hnd, List.nodup_singleton _, ?_⟩
      intro k hk hk'
      simp only [List.map_cons, List.map_nil, List.mem_singleton] at hk'
      subst hk'
      exact hnotkey hk
    · intro p hp
      rcases List.mem_append.mp hp with hp | hp
      · rw [List.filter_append, ← hcontent p hp]
        have hne : decide (entryKey e = p.1) = false := by
          simp only [decide_eq_false_iff_not]
          intro hk
          exact hnotkey (hk ▸ List.mem_map_of_mem Prod.fst hp)
        simp [List.filter_cons, hne]
      · simp only [List.mem_singleton] at hp
        subst hp
        rw [List.filter_append]
        have h1 : pfx.filter (fun x => decide (entryKey x = entryKey e)) = [] := by
          rw [List.filter_eq_nil_iff]
          intro a ha
          simp only [decide_eq_true_eq]
          intro hk
          exact hnotkey (hk ▸ hcov a ha)
        rw [h1]
        simp [List.filter_cons]
    · intro e' he'
      rw [List.map_append]
      rcases List.mem_append.mp he' with he' | he'
      · exact List.mem_append_left _ (hcov e' he')
      · simp only [List.mem_singleton] at he'
        subst he'
        apply List.mem_append_right
        simp

theorem groupPairs_inv (l : List WebEntry) : GPInv l (groupPairs l) := by
  have main : ∀ (l : List WebEntry) (pfx : List WebEntry)
      (m : List (String × List WebEntry)), GPInv pfx m →
      GPInv (pfx ++ l) (l.foldl (fun m e => insertGrouped m (entryKey e) e) m) := by
    intro l
    induction l with
    | nil => intro pfx m h; simpa using h
    | cons e l ih =>
      intro pfx m h
      simp only [List.foldl_cons]
      have step := ih (pfx ++ [e]) _ (insertGrouped_inv h e)
      simpa using step
  have h0 : GPInv [] [] := ⟨List.nodup_nil, by simp, by simp⟩
  simpa [groupPairs] using main l [] [] h0

theorem count_filter_key (l : List WebEntry) (a : WebEntry) (k : String) :
    (l.filter (fun e => decide (entryKey e = k))).count a =
      if entryKey a = k then l.count a else 0 := by
  by_cases h : entryKey a = k
  · rw [if_pos h]
    exact List.count_filter (by simp [h])
  · rw [if_neg h]
    rw [List.count_eq_zero]
    intro hmem
    exact h (by simpa using (List.mem_filter.mp hmem).2)

theorem count_flatten_buckets (l : List WebEntry) (a : WebEntry) :
    ∀ ks : List String, ks.Nodup →
      ((ks.map (fun k => l.filter (fun e => decide (entryKey e = k)))).flatten).count a =
        if entryKey a ∈ ks then l.count a else 0 := by
  intro ks
  induction ks with
  | nil => simp
  | cons k ks ih =>
    intro hnd
    rcases List.nodup_cons.mp hnd with ⟨hk, hnd'⟩
    simp only [List.map_cons, List.flatten_cons, List.count_append, ih hnd', count_filter_key]
    by_cases h : entryKey a = k
    · have hnot : entryKey a ∉ ks := h ▸ hk
      rw [if_pos h, if_neg hnot, if_pos (List.mem_cons.mpr (Or.inl h))]
      simp
    · rw [if_neg h]
      by_cases h2 : entryKey a ∈ ks
      · rw [if_pos h2, if_pos (List.mem_cons.mpr (Or.inr h2))]
        simp
      · rw [if_neg h2, if_neg (by simp [List.mem_cons, h, h2])]

theorem groupPairs_flatten_perm (l : List WebEntry) :
    ((groupPairs l).map Prod.snd).flatten.Perm l := by
  obtain ⟨hnd, hcontent, hcov⟩ := groupPairs_inv l
  have hmap : (groupPairs l).map Prod.snd =
      ((groupPairs l).map Prod.fst).map
        (fun k => l.filter (fun e => decide (entryKey e = k))) := by
    rw [List.map_map]
    exact List.map_congr_left (fun p hp => hcontent p hp)
  rw [hmap, List.perm_iff_count]
  intro a
  rw [count_flatten_buckets l a _ hnd]
  by_cases hmem : entryKey a ∈ (groupPairs l).map Prod.fst
  · rw [if_pos hmem]
  · rw [if_neg hmem]
    have hal : a ∉ l := fun hal => hmem (hcov a hal)
    rw [Eq.comm, List.count_eq_zero]
    exact hal

theorem grandTotal_eq_jsSum (gs : List Grouped) :
    grandTotal gs = jsSum (gs.map Grouped.total) := by
  simp only [grandTotal, jsSum, List.foldl_map]

theorem sumHours_flatten (bs : List (List WebEntry)) :
    sumHours bs.flatten = jsSum (bs.map sumHours) := by
  induction bs with
  | nil => simp [sumHours, jsSum]
  | cons b bs ih =>
    simp only [List.flatten_cons, List.map_cons, sumHours_append, jsSum_cons, ih]

theorem flatten_sortDesc_perm (ps : List (String × List WebEntry)) :
    ((ps.map (fun p => sortDesc entryLe p.2)).flatten).Perm ((ps.map Prod.snd).flatten) := by
  induction ps with
  | nil => simp
  | cons p ps ih =>
    simp only [List.map_cons, List.flatten_cons]
    exact (sortDesc_perm entryLe p.2).append ih

/-- Claim C7: for every entry list, the grand total of the grouped view
equals the read-path sum of all entries' hours of that list, every input
entry lands in exactly one bucket (the buckets' entry lists are jointly
a permutation of the input), and no bucket holds an entry whose date key
differs from the bucket's date. -/
theorem grandTotal_eq_sumHours (l : List WebEntry) :
    grandTotal (groupByDate l) = sumHours l ∧
    ((groupByDate l).map Grouped.entries).flatten.Perm l ∧
    (∀ g ∈ groupByDate l, ∀ e ∈ g.entries, entryKey e = g.date) := by
  obtain ⟨hnd, hcontent, hcov⟩ := groupPairs_inv l
  have hperm : (groupByDate l).Perm ((groupPairs l).map mkGroup) := sortDesc_perm groupLe _
  refine ⟨?_, ?_, ?_⟩
  · rw [grandTotal_eq_jsSum, jsSum_perm (hperm.map Grouped.total), List.map_map]
    have h1 : ((groupPairs l).map (Grouped.total ∘ mkGroup)) =
        (groupPairs l).map (fun p => sumHours p.2) := by
      apply List.map_congr_left
      intro p _
      exact sumHours_perm (sortDesc_perm entryLe p.2)
    have h2 : (groupPairs l).map (fun p => sumHours p.2) =
        ((groupPairs l).map Prod.snd).map sumHours := by
      rw [List.map_map]
      rfl
    rw [h1, h2, ← sumHours_flatten]
    exact sumHours_perm (groupPairs_flatten_perm l)
  · have h1 : ((groupByDate l).map Grouped.entries).flatten.Perm
        ((((groupPairs l).map mkGroup).map Grouped.entries).flatten) :=
      (hperm.map Grouped.entries).flatten
    have h2 : (((groupPairs l).map mkGroup).map Grouped.entries) =
        (groupPairs l).map (fun p => sortDesc entryLe p.2) := by
      rw [List.map_map]
      rfl
    refine (h1.trans ?_)
    rw [h2]
    exact (flatten_sortDesc_perm (groupPairs l)).trans (groupPairs_flatten_perm l)
  · intro g hg e he
    rcases List.mem_map.mp (hperm.mem_iff.mp hg) with ⟨p, hpm, rfl⟩
    have he' : e ∈ p.2 := (sortDesc_perm entryLe p.2).mem_iff.mp he
    rw [hcontent p hpm] at he'
    simpa using (List.mem_filter.mp he').2

/-- Claim C8: at two distinct entries with equal `createdAt` the
source's within-bucket comparator orders each strictly before the other
(`cmp(a, b) = cmp(b, a) = -1`) and it never returns 0, so it is not a
consistent comparison function; ECMAScript therefore leaves the
relative order of equal-`createdAt` entries implementation-defined
(V8's run detection reverses such runs), and the insertion-order tie
rule the claim states is not guaranteed by the code. -/
theorem entryCmp_tie_inconsistent :
    wTie1.createdAt = wTie2.createdAt ∧ wTie1 ≠ wTie2 ∧
    entryCmp wTie1 wTie2 = -1 ∧ entryCmp wTie2 wTie1 = -1 :=
  ⟨by decide, by decide, by decide, by decide⟩

theorem dailySum_append (l : List ApiEntry) (e : ApiEntry) (d : String) :
    dailySum (l ++ [e]) d = dailySum l d + (if e.date = d then e.hours else 0) := by
  simp only [dailySum, List.filter_append, List.map_append, List.sum_append]
  congr 1
  by_cases h : e.date = d
  · simp [List.filter_cons, h]
  · simp [List.filter_cons, h]

theorem validateEntry_hours {c : Candidate} (hv : validateEntry c = true) : 0 < c.hours := by
  simp only [validateEntry, Bool.and_eq_true] at hv
  obtain ⟨⟨⟨_, _⟩, hh⟩, _⟩ := hv
  simpa [hoursOk] using hh

theorem postEntry_inv {st : Store} (h : StoreInv st) (c : Candidate) :
    StoreInv (postEntry st c).2 := by
  obtain ⟨hpos, hsum⟩ := h
  by_cases hv : validateEntry c = true
  · by_cases hdv : jsDateValid c.date = false
    · simp only [postEntry, hv, if_true, if_pos hdv]
      exact ⟨hpos, hsum⟩
    · by_cases hcap : MAX_HOURS_PER_DAY < dailySum st.entries c.date + c.hours
      · simp only [postEntry, hv, if_true, if_neg hdv, if_pos hcap]
        exact ⟨hpos, hsum⟩
      · simp only [postEntry, hv, if_true, if_neg hdv, if_neg hcap]
        constructor
        · intro e he
          rcases List.mem_append.mp he with he | he
          · exact hpos e he
          · simp only [List.mem_singleton] at he
            subst he
            exact validateEntry_hours hv
        · intro d
          rw [dailySum_append]
          by_cases hd : c.date = d
          · subst hd
            rw [if_pos rfl]
            exact not_lt.mp hcap
          · rw [if_neg hd, add_zero]
            exact hsum d
  · simp only [postEntry, if_neg hv]
    exact ⟨hpos, hsum⟩

theorem deleteEntry_inv {st : Store} (h : StoreInv st) (v : JsNum) :
    StoreInv (deleteEntry st v).2 := by
  obtain ⟨hpos, hsum⟩ := h
  by_cases hval : isPosIntId v = false
  · simp only [deleteEntry, if_pos hval]
    exact ⟨hpos, hsum⟩
  · simp only [deleteEntry, if_neg hval]
    by_cases hany : st.entries.any (fun e => decide (e.id = jsNumToNat v)) = true
    · rw [if_pos hany]
      constructor
      · intro e he
        exact hpos e (List.mem_filter.mp he).1
      · intro d
        refine le_trans ?_ (hsum d)
        apply List.Sublist.sum_le_sum
        · exact ((List.filter_sublist _).filter _).map _
        · intro x hx
          rcases List.mem_map.mp hx with ⟨e, he, rfl⟩
          exact le_of_lt (hpos e (List.mem_filter.mp he).1)
    · rw [if_neg hany]
      exact ⟨hpos, hsum⟩

theorem applyOp_inv {st : Store} (h : StoreInv st) (op : Op) : StoreInv (applyOp st op) := by
  cases op with
  | create c => exact postEntry_inv h c
  | del v => exact deleteEntry_inv h v

theorem initStore_inv : StoreInv initStore := by
  constructor
  · intro e he
    simp [initStore] at he
  · intro d
    norm_num [initStore, dailySum, MAX_HOURS_PER_DAY]

/-- Claim C2: from the empty store, every store reachable by a sequence
of sequentially executed creation and deletion operations keeps every
calendar date's hour total at or below `MAX_HOURS_PER_DAY`; in
particular the deletions occurring along such a sequence preserve the
invariant. -/
theorem runOps_daily_cap (ops : List Op) (d : String) :
    dailySum (runOps ops).entries d ≤ MAX_HOURS_PER_DAY := by
  have main : ∀ (ops : List Op) (st : Store), StoreInv st →
      StoreInv (ops.foldl applyOp st) := by
    intro ops
    induction ops with
    | nil => intro st h; simpa using h
    | cons op ops ih =>
      intro st h
      simp only [List.foldl_cons]
      exact ih _ (applyOp_inv h op)
  exact (main ops initStore initStore_inv).2 d

/-- Claim C1 counterexample: a validator-passing candidate whose date
matches the digit pattern but denotes no real calendar day is neither
created nor cap-rejected even though the daily sum would allow it —
the handler's date conversion yields an Invalid Date, the store call
throws, and nothing is persisted. -/
theorem postEntry_unreal_date :
    validateEntry cBadDate = true ∧
    dailySum initStore.entries cBadDate.date + cBadDate.hours ≤ MAX_HOURS_PER_DAY ∧
    postEntry initStore cBadDate = (PostResult.storeError, initStore) := by
  refine ⟨by decide, ?_, by decide⟩
  norm_num [dailySum, initStore, cBadDate, MAX_HOURS_PER_DAY]

/-- Claim C1 (amended): for a candidate that passed the validator and
whose date denotes a real calendar day, creation succeeds and appends
exactly the new entry when the existing sum for its date plus its hours
is at most 24, and is rejected with the daily-cap error, leaving the
store unchanged, when that sum exceeds 24. (For a validator-passing
candidate whose date denotes no real calendar day the handler's date
conversion is invalid and the store call throws: nothing is persisted
and no cap decision is made.) -/
theorem postEntry_cap_spec (st : Store) (c : Candidate) (hv : validateEntry c = true)
    (hd : jsDateValid c.date = true) :
    (dailySum st.entries c.date + c.hours ≤ MAX_HOURS_PER_DAY →
      ∃ e : ApiEntry, (postEntry st c).1 = PostResult.created e ∧
        (postEntry st c).2.entries = st.entries ++ [e]) ∧
    (MAX_HOURS_PER_DAY < dailySum st.entries c.date + c.hours →
      (postEntry st c).1 = PostResult.capExceeded capMessage ∧
        (postEntry st c).2 = st) := by
  have hd' : ¬ jsDateValid c.date = false := by simp [hd]
  constructor
  · intro hle
    refine ⟨⟨st.nextId, c.date, c.project, c.hours, c.description⟩, ?_, ?_⟩ <;>
      simp only [postEntry, hv, if_true, if_neg hd', if_neg (not_lt.mpr hle)]
  · intro hgt
    refine ⟨?_, ?_⟩ <;> simp only [postEntry, hv, if_true, if_neg hd', if_pos hgt]

theorem postEntry_cap_spec_witness :
    (∃ e : ApiEntry, (postEntry initStore cNew).1 = PostResult.created e ∧
      (postEntry initStore cNew).2.entries = initStore.entries ++ [e]) ∧
    ((postEntry stFull cOne).1 = PostResult.capExceeded capMessage ∧
      (postEntry stFull cOne).2 = stFull) :=
  ⟨(postEntry_cap_spec initStore cNew (by decide) (by decide)).1
      (by norm_num [initStore, dailySum, cNew, MAX_HOURS_PER_DAY]),
   (postEntry_cap_spec stFull cOne (by decide) (by decide)).2
      (by norm_num [dailySum, stFull, eFull, cOne, MAX_HOURS_PER_DAY])⟩

/-- Claim C3 counterexample: a concrete cap rejection whose message
contains the limit "24" but not the rejected entry's date
"2026-01-29". -/
theorem capMessage_no_date :
    (postEntry stFull cOne).1 = PostResult.capExceeded capMessage ∧
    hasSub "24".data capMessage.data = true ∧
    hasSub cOne.date.data capMessage.data = false := by
  have hv : validateEntry ⟨"2026-01-29", "Client A", (1 : ℚ), "more work"⟩ = true := by
    decide
  have hdv : jsDateValid "2026-01-29" = true := by decide
  refine ⟨?_, by decide, by decide⟩
  norm_num [postEntry, hv, hdv, dailySum, stFull, eFull, cOne, MAX_HOURS_PER_DAY]

/-- Claim C3 (amended): every daily-cap rejection carries the one fixed
message `Max 24 hours per day exceeded`, which states the limit 24 but
is the same for every date and so never states the rejected entry's
date. -/
theorem postEntry_capMessage (st : Store) (c : Candidate) (msg : String)
    (h : (postEntry st c).1 = PostResult.capExceeded msg) :
    msg = capMessage ∧ hasSub "24".data msg.data = true := by
  have hmsg : msg = capMessage := by
    by_cases hv : validateEntry c = true
    · by_cases hdv : jsDateValid c.date = false
      · simp only [postEntry, hv, if_true, if_pos hdv] at h
        simp at h
      · by_cases hcap : MAX_HOURS_PER_DAY < dailySum st.entries c.date + c.hours
        · simp only [postEntry, hv, if_true, if_neg hdv, if_pos hcap] at h
          simpa using h.symm
        · simp only [postEntry, hv, if_true, if_neg hdv, if_neg hcap] at h
          simp at h
    · simp only [postEntry, if_neg hv] at h
      simp at h
  subst hmsg
  exact ⟨rfl, by decide⟩

theorem postEntry_capMessage_witness :
    capMessage = capMessage ∧ hasSub "24".data capMessage.data = true := by
  apply postEntry_capMessage stFull cOne capMessage
  have hv : validateEntry ⟨"2026-01-29", "Client A", (1 : ℚ), "more work"⟩ = true := by
    decide
  have hdv : jsDateValid "2026-01-29" = true := by decide
  norm_num [postEntry, hv, hdv, dailySum, stFull, eFull, cOne, MAX_HOURS_PER_DAY]

/-- Claim C10: a deletion request whose identifier is not a positive
integer is rejected with the "Invalid id" outcome, distinct from
NotFound, and the store is left untouched. -/
theorem deleteEntry_invalid_id (st : Store) (v : JsNum) (h : isPosIntId v = false) :
    (deleteEntry st v).1 = DeleteResult.invalidId ∧ (deleteEntry st v).2 = st ∧
      DeleteResult.invalidId ≠ DeleteResult.notFound := by
  refine ⟨?_, ?_, by simp⟩ <;> simp only [deleteEntry, if_pos h]

theorem deleteEntry_invalid_id_witness :
    (deleteEntry stFull JsNum.nan).1 = DeleteResult.invalidId ∧
    (deleteEntry stFull JsNum.nan).2 = stFull ∧
    DeleteResult.invalidId ≠ DeleteResult.notFound :=
  deleteEntry_invalid_id stFull JsNum.nan (by decide)

/-- Claim C4 counterexample: a candidate whose description is a single
space passes the validator although the description is empty after
trimming surrounding whitespace. -/
theorem validator_accepts_blank_description :
    validateEntry cWS = true ∧ jsTrim cWS.description = "" :=
  ⟨by decide, by decide⟩

/-- Claim C4 (amended): with the other fields valid, the validator
rejects exactly the empty-string description — no trimming is applied,
so a whitespace-only description is accepted. -/
theorem validateEntry_description_iff (s : String) :
    validateEntry ⟨"2026-01-29", "Client A", 1, s⟩ = true ↔ s ≠ "" := by
  have hlen : descOk s = true ↔ s ≠ "" := by
    cases s with
    | mk data =>
      cases data with
      | nil =>
        refine iff_of_false (by simp [descOk, String.length]) ?_
        intro h
        exact h rfl
      | cons c cs =>
        refine iff_of_true (by simp [descOk, String.length]) ?_
        intro h
        exact List.noConfusion (congrArg String.data h)
  have hd : dateOk "2026-01-29" = true := by decide
  have hp : projectOk "Client A" = true := by decide
  have hh : hoursOk (1 : ℚ) = true := by decide
  simp [validateEntry, hd, hp, hh, hlen]

/-- Claim C5 counterexample: the date "2026-13-40" matches the digit
pattern and passes the validator although month 13 / day 40 denote no
real calendar day. -/
theorem validator_accepts_unreal_date :
    validateEntry cBadDate = true ∧ cBadDate.date = mkDateString 2026 13 40 ∧
    isRealDay 2026 13 40 = false :=
  ⟨by decide, by decide, by decide⟩

theorem digitCharOf_isDigit (n : Nat) : (digitCharOf n).isDigit = true := by
  have h : n % 10 < 10 := Nat.mod_lt _ (by norm_num)
  show (Char.ofNat (48 + n % 10)).isDigit = true
  revert h
  generalize n % 10 = k
  intro h
  interval_cases k <;> decide

/-- Claim C5 (amended): the validator's date check is purely syntactic —
every four-digit/two-digit/two-digit rendering passes it, whether or
not the digits denote a real calendar day. -/
theorem validateEntry_accepts_any_digits (y m d : Nat) :
    validateEntry ⟨mkDateString y m d, "Client A", 1, "work"⟩ = true := by
  have hp : projectOk "Client A" = true := by decide
  have hh : hoursOk (1 : ℚ) = true := by decide
  have hdesc : descOk "work" = true := by decide
  have hdate : dateOk (mkDateString y m d) = true := by
    show dateOkChars (pad4c y ++ '-' :: (pad2c m ++ '-' :: pad2c d)) = true
    simp [pad4c, pad2c, dateOkChars, digitCharOf_isDigit]
  simp [validateEntry, hdate, hp, hh, hdesc]

/-- Claim C6 counterexample: an entry whose hours is +Infinity is not
treated as zero — the bucket total becomes +Infinity. -/
theorem sumHours_infinity :
    sumHours [wInf] = JsNum.inf ∧ JsNum.inf ≠ JsNum.num 0 ∧
    groupByDate [wInf] = [⟨"2026-01-29", [wInf], JsNum.inf⟩] :=
  ⟨by decide, by decide, by decide⟩

/-- Claim C6 (amended): in the read-path total, a NaN or missing hours
value contributes exactly zero and finite values contribute themselves,
so for a list without infinite hours the total is the arithmetic sum
with NaN/missing as zero; an infinite hours value instead propagates
into the total. -/
theorem sumHours_nan_missing_zero (l : List WebEntry)
    (h : ∀ e ∈ l, e.hours ≠ some JsNum.inf ∧ e.hours ≠ some JsNum.negInf) :
    sumHours l = JsNum.num ((l.map (fun e => finContribution e.hours)).sum) := by
  induction l with
  | nil => simp [sumHours]
  | cons e l ih =>
    have he := h e (List.mem_cons_self e l)
    have hrest : ∀ x ∈ l, x.hours ≠ some JsNum.inf ∧ x.hours ≠ some JsNum.negInf :=
      fun x hx => h x (List.mem_cons_of_mem e hx)
    have hcoerce : coerceHours e.hours = JsNum.num (finContribution e.hours) := by
      rcases he with ⟨h1, h2⟩
      cases hh : e.hours with
      | none => simp [coerceHours, jsOr, finContribution]
      | some v =>
        cases v with
        | num q => simp [coerceHours, jsOr, finContribution]
        | nan => simp [coerceHours, jsOr, finContribution]
        | inf => exact absurd hh h1
        | negInf => exact absurd hh h2
    have hsingle : sumHours [e] = coerceHours e.hours := by
      simp [sumHours, jsAdd_zero_left]
    rw [show e :: l = [e] ++ l from rfl, sumHours_append, ih hrest, hsingle, hcoerce]
    simp [jsAdd, List.sum_append]

theorem sumHours_nan_missing_zero_witness :
    sumHours [wNan, wNone, wFive] = JsNum.num 5 := by
  rw [sumHours_nan_missing_zero [wNan, wNone, wFive] (by decide)]
  norm_num [finContribution, wNan, wNone, wFive]

/-- Claim C9: with mode "all" the transform's input is the full
collection unchanged; with mode "month" and non-empty (truthy) year and
month selections, an entry is kept exactly when its year and month
slices equal the selection. -/
theorem filteredEntries_spec (mode : FilterMode) (fy fm : String)
    (entries : List WebEntry) :
    (mode = FilterMode.all → filteredEntries mode fy fm entries = entries) ∧
    (mode = FilterMode.month → fy ≠ "" → fm ≠ "" →
      ∀ e, e ∈ filteredEntries mode fy fm entries ↔
        e ∈ entries ∧ (toYYYYMM e.date).1 = fy ∧ (toYYYYMM e.date).2 = fm) := by
  constructor
  · intro h
    simp [filteredEntries, h]
  · intro hm hy hmm
    subst hm
    intro e
    rw [filteredEntries, if_neg (by simp), if_neg (by simp [hy, hmm])]
    simp [List.mem_filter, and_assoc]

theorem filteredEntries_spec_witness :
    filteredEntries FilterMode.all "2026" "01" [wFive, wFeb] = [wFive, wFeb] ∧
    (wFeb ∈ filteredEntries FilterMode.month "2026" "02" [wFive, wFeb] ↔
      wFeb ∈ [wFive, wFeb] ∧ (toYYYYMM wFeb.date).1 = "2026" ∧
        (toYYYYMM wFeb.date).2 = "02") :=
  ⟨(filteredEntries_spec FilterMode.all "2026" "01" [wFive, wFeb]).1 rfl,
   (filteredEntries_spec FilterMode.month "2026" "02" [wFive, wFeb]).2 rfl
     (by decide) (by decide) wFeb⟩

theorem runOps_daily_cap_witness :
    dailySum (runOps [Op.create cNew, Op.del (JsNum.num 1)]).entries "2026-01-30" ≤
      MAX_HOURS_PER_DAY :=
  runOps_daily_cap [Op.create cNew, Op.del (JsNum.num 1)] "2026-01-30"

theorem validateEntry_description_iff_witness :
    validateEntry ⟨"2026-01-29", "Client A", 1, "hello"⟩ = true :=
  (validateEntry_description_iff "hello").mpr (by decide)

theorem validateEntry_accepts_any_digits_witness :
    validateEntry ⟨mkDateString 2026 13 40, "Client A", 1, "work"⟩ = true :=
  validateEntry_accepts_any_digits 2026 13 40

theorem grandTotal_eq_sumHours_witness :
    grandTotal (groupByDate [wFive, wNan]) = sumHours [wFive, wNan] :=
  (grandTotal_eq_sumHours [wFive, wNan]).1

end TimeTracker
